import Mathlib

/-!
Verification of the Morse bitstream decoder (`morse.py`).

The embedding follows the source file: the Morse table and trie, the scoring
model, the generational beam-search decoder with memoization, the polarity
wrapper, and the result aggregator from `main`.

Scores: every score constant in the source is a multiple of 0.05, so scores
are embedded exactly as integers scaled by 20 (0.05 maps to 1): the letter
weight 1.0 for E is 20, the dictionary bonus 5.0 is 100, the over-length
penalty 2.0 is 40, and the word-boundary penalty 0.2 is 4.

The Python trie is a nested dict whose keys are the characters of the codes
plus a terminal key.  Walking the trie with a raw bitstream character equal
to that terminal key makes the Python variable `node` a *string* (the stored
letter), and a subsequent index into it raises a TypeError; the walk is
therefore embedded as a fallible computation (`Except PyErr`).  The
generational `while states` loop is embedded with explicit fuel, and fuel
sufficiency (`2 * n + 1` generations always empty the frontier) is proved.
-/

namespace Morse

/-- The 26-entry Morse table, in source order (`MORSE` in morse.py). -/
def MORSE : List (String × Char) :=
  [(".-", 'A'), ("-...", 'B'), ("-.-.", 'C'), ("-..", 'D'), (".", 'E'),
   ("..-.", 'F'), ("--.", 'G'), ("....", 'H'), ("..", 'I'), (".---", 'J'),
   ("-.-", 'K'), (".-..", 'L'), ("--", 'M'), ("-.", 'N'), ("---", 'O'),
   (".--.", 'P'), ("--.-", 'Q'), (".-.", 'R'), ("...", 'S'), ("-", 'T'),
   ("..-", 'U'), ("...-", 'V'), (".--", 'W'), ("-..-", 'X'),
   ("-.--", 'Y'), ("--..", 'Z')]

/-- A Morse trie node: optional terminal letter plus dot and dash children.
`nil` encodes an absent child (the Python dict has no entry for that key). -/
inductive MTrie where
  | nil : MTrie
  | node (term : Option Char) (dot : MTrie) (dash : MTrie) : MTrie
deriving DecidableEq

/-- Terminal letter of a node (the value at the Python key `"$"`). -/
def MTrie.termOf : MTrie → Option Char
  | .nil => none
  | .node t _ _ => t

/-- Dot child of a node. -/
def MTrie.dotOf : MTrie → MTrie
  | .nil => .nil
  | .node _ d _ => d

/-- Dash child of a node. -/
def MTrie.dashOf : MTrie → MTrie
  | .nil => .nil
  | .node _ _ h => h

/-- Walk/create the path of one code and mark its final node with the letter,
preserving existing structure (Python `setdefault`).  The codes in `MORSE`
contain only dot and dash characters, so the final catch-all branch is dead. -/
def MTrie.insert : MTrie → List Char → Char → MTrie
  | t, [], L => .node (some L) t.dotOf t.dashOf
  | t, c :: cs, L =>
    if c = '.' then .node t.termOf (MTrie.insert t.dotOf cs L) t.dashOf
    else if c = '-' then .node t.termOf t.dotOf (MTrie.insert t.dashOf cs L)
    else .node t.termOf t.dotOf t.dashOf

/-- Build the trie from a code table (`build_morse_trie` in morse.py). -/
def build_morse_trie (morse_map : List (String × Char)) : MTrie :=
  morse_map.foldl (fun trie p => MTrie.insert trie p.1.toList p.2) .nil

/-- The process-wide trie (`MORSE_TRIE` in morse.py). -/
def MORSE_TRIE : MTrie := build_morse_trie MORSE

/-- Letter frequency table (`LETTER_FREQ`), scaled by 20. -/
def LETTER_FREQ : List (Char × Int) :=
  [('E', 20), ('T', 18), ('A', 17), ('O', 17), ('N', 16), ('R', 16),
   ('I', 15), ('S', 15), ('H', 14), ('L', 14), ('D', 13)]

/-- Association lookup in the frequency table (Python `dict.get`). -/
def lookupFreq : List (Char × Int) → Char → Option Int
  | [], _ => none
  | (k, v) :: rest, c => if k = c then some v else lookupFreq rest c

/-- Scaled letter score: the tabulated weight, or the default 0.25 (= 5). -/
def score_letter (c : Char) : Int :=
  match lookupFreq LETTER_FREQ c with
  | some v => v
  | none => 5

/-- Scaled word score: letter scores summed left to right, +5.0 (= 100) for a
dictionary member, −2.0 (= −40) for a word longer than 12 characters. -/
def score_word (word : String) (dictionary : List String) : Int :=
  let base := word.toList.foldl (fun s c => s + score_letter c) 0
  let withBonus := if word ∈ dictionary then base + 100 else base
  if word.length > 12 then withBonus - 40 else withBonus

/-- Configuration constant `BEAM_WIDTH` of morse.py. -/
def BEAM_WIDTH : Nat := 12000

/-- Configuration constant `MAX_WORD_LEN` of morse.py. -/
def MAX_WORD_LEN : Nat := 15

/-- Configuration constant `MAX_RESULTS` of morse.py. -/
def MAX_RESULTS : Nat := 20

/-- Errors the decoder can raise: the TypeError from indexing a string node
of the trie walk, and exhaustion of the explicit loop fuel. -/
inductive PyErr where
  | typeError : PyErr
  | fuelOut : PyErr
deriving DecidableEq

/-- Value of the Python variable `node` during the trie walk: a trie node, or
the string stored under the terminal key once the walk has stepped through it. -/
inductive WNode where
  | trie (t : MTrie) : WNode
  | str (s : String) : WNode

/-- View an `MTrie` child slot as the optional walk node behind it. -/
def childOpt : MTrie → Option WNode
  | .nil => none
  | .node t d h => some (.trie (.node t d h))

/-- One combined membership test and index (`bits[i] in node` followed by
`node = node[bits[i]]`).  `ok none` means the character is not a key and the
walk stops; indexing a string node with a character key raises a TypeError. -/
def lookupChild : WNode → Char → Except PyErr (Option WNode)
  | .trie t, c =>
    if c = '.' then .ok (childOpt t.dotOf)
    else if c = '-' then .ok (childOpt t.dashOf)
    else if c = '$' then .ok (t.termOf.map fun L => .str (String.singleton L))
    else .ok none
  | .str s, c => if s.toList.contains c then .error .typeError else .ok none

/-- Membership test for the terminal key (`"$" in node`). -/
def hasDollar : WNode → Bool
  | .trie t => t.termOf.isSome
  | .str s => s.toList.contains '$'

/-- Index with the terminal key (`node["$"]`); indexing a string raises. -/
def getDollar : WNode → Except PyErr Char
  | .trie t =>
    match t.termOf with
    | some L => .ok L
    | none => .error .typeError
  | .str _ => .error .typeError

/-- The inner trie walk of `brute_force_decode`: starting from `node`, consume
characters of the remaining symbols one at a time while they match, and emit
`(consumed index, letter)` at every terminal node passed, provided the current
word is shorter than `mwl`.  `wlen` is the length of the state's current word
(fixed during one walk) and `i` the absolute position before the next symbol. -/
def walkSucc (mwl wlen : Nat) : WNode → List Char → Nat → Except PyErr (List (Nat × Char))
  | _, [], _ => .ok []
  | nd, c :: rest, i =>
    match lookupChild nd c with
    | .error e => .error e
    | .ok none => .ok []
    | .ok (some nd') =>
      if hasDollar nd' && decide (wlen < mwl) then
        match getDollar nd' with
        | .error e => .error e
        | .ok L =>
          match walkSucc mwl wlen nd' rest (i + 1) with
          | .error e => .error e
          | .ok tail => .ok ((i + 1, L) :: tail)
      else
        match walkSucc mwl wlen nd' rest (i + 1) with
        | .error e => .error e
        | .ok tail => .ok tail

/-- A search state `(bit_pos, current_word, sentence_tuple, score)`. -/
structure SState where
  pos : Nat
  word : String
  sentence : List String
  score : Int
deriving DecidableEq

/-- Space-join of committed words (`" ".join(...)`). -/
def joinWords : List String → String
  | [] => ""
  | [w] => w
  | w :: x :: ws => w ++ " " ++ joinWords (x :: ws)

/-- Handle one popped state, after the memo check: at the end of the symbol
sequence, finalize when the current word is non-empty and a dictionary member
and produce no successors; otherwise produce the letter-extension successors
from the trie walk followed by the word-boundary successor. -/
def handleState (bits : List Char) (dict : List String) (mwl : Nat) (s : SState) :
    Except PyErr (List (String × Int) × List SState) :=
  if s.pos = bits.length then
    if s.word ≠ "" ∧ s.word ∈ dict then
      .ok ([(joinWords (s.sentence ++ [s.word]), s.score + score_word s.word dict)], [])
    else
      .ok ([], [])
  else
    match walkSucc mwl s.word.length (.trie MORSE_TRIE) (bits.drop s.pos) s.pos with
    | .error e => .error e
    | .ok raw =>
      .ok ([],
        (raw.map fun p =>
          SState.mk p.1 (s.word.push p.2) s.sentence (s.score + score_letter p.2)) ++
        (if s.word ≠ "" ∧ s.word ∈ dict then
          [SState.mk s.pos "" (s.sentence ++ [s.word]) (s.score + score_word s.word dict - 4)]
        else []))

/-- The memo table `(pos, current_word) → best score seen`, newest entry first. -/
abbrev Memo := List ((Nat × String) × Int)

/-- First score recorded for a key (Python dict lookup). -/
def memoFind (v : Memo) (k : Nat × String) : Option Int :=
  match v with
  | [] => none
  | (k', s) :: rest => if k' = k then some s else memoFind rest k

/-- Memo dominance test: `key in visited and visited[key] >= score`. -/
def memoSkip (v : Memo) (k : Nat × String) (sc : Int) : Bool :=
  match memoFind v k with
  | some s0 => sc ≤ s0
  | none => false

/-- Process one generation of states in order, threading the memo table and
collecting finalized results and successor states (the body of the `for` loop
of `brute_force_decode`). -/
def runGen (bits : List Char) (dict : List String) (mwl : Nat) :
    List SState → Memo → Except PyErr (List (String × Int) × List SState × Memo)
  | [], v => .ok ([], [], v)
  | s :: rest, v =>
    if memoSkip v (s.pos, s.word) s.score then
      runGen bits dict mwl rest v
    else
      match handleState bits dict mwl s with
      | .error e => .error e
      | .ok (res, succ) =>
        match runGen bits dict mwl rest (((s.pos, s.word), s.score) :: v) with
        | .error e => .error e
        | .ok (res', succ', v') => .ok (res ++ res', succ ++ succ', v')

/-- Stable insertion into a descending-by-key list: the new element goes in
front of the first element whose key is not larger. -/
def insertDesc (key : α → Int) (x : α) : List α → List α
  | [] => [x]
  | y :: ys => if key x < key y then y :: insertDesc key x ys else x :: y :: ys

/-- Stable descending sort by an integer key; extensionally identical to the
stable Python `sort(key=lambda x: -key(x))`. -/
def sortDesc (key : α → Int) : List α → List α
  | [] => []
  | x :: xs => insertDesc key x (sortDesc key xs)

/-- The generational loop `while states:` with explicit fuel: run a generation,
sort its successors by descending score, truncate to the beam width, repeat. -/
def decodeLoop (bw mwl : Nat) (bits : List Char) (dict : List String) :
    Nat → List SState → Memo → List (String × Int) → Except PyErr (List (String × Int))
  | _, [], _, res => .ok res
  | 0, _ :: _, _, _ => .error .fuelOut
  | fuel + 1, s :: rest, v, res =>
    match runGen bits dict mwl (s :: rest) v with
    | .error e => .error e
    | .ok (newRes, succ, v') =>
      decodeLoop bw mwl bits dict fuel ((sortDesc (fun x => x.score) succ).take bw) v'
        (res ++ newRes)

/-- The decoder `brute_force_decode`, parametric in the three configuration
constants; the repository runs it at `BEAM_WIDTH`, `MAX_WORD_LEN`,
`MAX_RESULTS`.  Fuel `2 * n + 1` is sufficient (proved below). -/
def brute_force_decode (bw mwl mr : Nat) (bits : List Char) (dict : List String) :
    Except PyErr (List (String × Int)) :=
  match decodeLoop bw mwl bits dict (2 * bits.length + 1) [SState.mk 0 "" [] 0] [] [] with
  | .error e => .error e
  | .ok res => .ok ((sortDesc (fun x => x.2) res).take mr)

/-- The polarity wrapper `decode_with_polarity`: optionally swap the bit
values, then map 1 to dot and 0 to dash, leaving other characters unchanged,
and run the decoder at the repository's configuration constants. -/
def decode_with_polarity (bitstream : List Char) (dict : List String) (invert : Bool) :
    Except PyErr (List (String × Int)) :=
  let bits0 := if invert
    then bitstream.map (fun c => if c = '1' then '0' else if c = '0' then '1' else c)
    else bitstream
  let bits1 := bits0.map fun c => if c = '1' then '.' else c
  let bits2 := bits1.map fun c => if c = '0' then '-' else c
  brute_force_decode BEAM_WIDTH MAX_WORD_LEN MAX_RESULTS bits2 dict

/-- First recorded score for a sentence text in the aggregator's map. -/
def bestScoreOf (best : List (String × Int)) (t : String) : Option Int :=
  match best with
  | [] => none
  | (t', s) :: rest => if t' = t then some s else bestScoreOf rest t

/-- One aggregator update: `if text not in best or best[text] < score:
best[text] = score`, preserving dict insertion order. -/
def updateBest (best : List (String × Int)) (t : String) (sc : Int) : List (String × Int) :=
  match bestScoreOf best t with
  | none => best ++ [(t, sc)]
  | some s0 => if s0 < sc then best.map (fun p => if p.1 = t then (t, sc) else p) else best

/-- Deduplicate a result list by sentence text, keeping the best score. -/
def mergeBest (l : List (String × Int)) : List (String × Int) :=
  l.foldl (fun b p => updateBest b p.1 p.2) []

/-- The result aggregation of `main`: merge the two polarity runs' lists,
keep the maximum score per text, rank descending, truncate to `MAX_RESULTS`. -/
def aggregate (l1 l2 : List (String × Int)) : List (String × Int) :=
  (sortDesc (fun x => x.2) (mergeBest (l1 ++ l2))).take MAX_RESULTS

/-- The child slot behind a code character ('.' and '-'; anything else is
absent). -/
def childFor (t : MTrie) (c : Char) : MTrie :=
  if c = '.' then t.dotOf else if c = '-' then t.dashOf else .nil

/-- Follow a path of code characters from a node. -/
def follow (t : MTrie) : List Char → MTrie
  | [] => t
  | c :: cs => follow (childFor t c) cs

/-- All terminal nodes of a trie, as pairs of root path and stored letter. -/
def terminals : MTrie → List (List Char × Char)
  | .nil => []
  | .node t d h =>
    (match t with | some L => [([], L)] | none => []) ++
    (terminals d).map (fun p => (('.' : Char) :: p.1, p.2)) ++
    (terminals h).map (fun p => (('-' : Char) :: p.1, p.2))

/-- Height of a trie (number of nodes on a longest root path). -/
def heightT : MTrie → Nat
  | .nil => 0
  | .node _ d h => 1 + max (heightT d) (heightT h)

/-- Height bound of a walk node; a string node supports no further steps. -/
def heightW : WNode → Nat
  | .trie t => heightT t
  | .str _ => 0

/-- Termination measure of a search state: twice the remaining symbols, plus
one when a word is in progress. -/
def stateMeasure (n : Nat) (s : SState) : Nat :=
  2 * (n - s.pos) + (if s.word = "" then 0 else 1)

/-! ## Basic lemmas about the stable descending sort -/

theorem insertDesc_perm (key : α → Int) (x : α) (l : List α) :
    List.Perm (insertDesc key x l) (x :: l) := by
  induction l with
  | nil => simp [insertDesc]
  | cons y ys ih =>
    simp only [insertDesc]
    split
    · exact (ih.cons y).trans (List.Perm.swap x y ys)
    · exact List.Perm.refl _

theorem sortDesc_perm (key : α → Int) (l : List α) : List.Perm (sortDesc key l) l := by
  induction l with
  | nil => simp [sortDesc]
  | cons x xs ih => exact (insertDesc_perm key x (sortDesc key xs)).trans (ih.cons x)

theorem mem_sortDesc (key : α → Int) (l : List α) (x : α) :
    x ∈ sortDesc key l ↔ x ∈ l :=
  (sortDesc_perm key l).mem_iff

theorem length_sortDesc (key : α → Int) (l : List α) :
    (sortDesc key l).length = l.length :=
  (sortDesc_perm key l).length_eq

theorem pairwise_insertDesc (key : α → Int) (x : α) (l : List α)
    (h : l.Pairwise (fun a b => key b ≤ key a)) :
    (insertDesc key x l).Pairwise (fun a b => key b ≤ key a) := by
  induction l with
  | nil => simp [insertDesc]
  | cons y ys ih =>
    rw [List.pairwise_cons] at h
    obtain ⟨hy, hys⟩ := h
    simp only [insertDesc]
    split
    · next hlt =>
      rw [List.pairwise_cons]
      refine ⟨fun z hz => ?_, ih hys⟩
      rcases List.mem_cons.mp ((insertDesc_perm key x ys).mem_iff.mp hz) with rfl | hz
      · exact le_of_lt hlt
      · exact hy z hz
    · next hge =>
      rw [List.pairwise_cons]
      refine ⟨fun z hz => ?_, List.pairwise_cons.mpr ⟨hy, hys⟩⟩
      rcases List.mem_cons.mp hz with rfl | hz
      · exact le_of_not_lt hge
      · exact le_trans (hy z hz) (le_of_not_lt hge)

theorem pairwise_sortDesc (key : α → Int) (l : List α) :
    (sortDesc key l).Pairwise (fun a b => key b ≤ key a) := by
  induction l with
  | nil => simp [sortDesc]
  | cons x xs ih => exact pairwise_insertDesc key x (sortDesc key xs) ih

/-! ## Trie walk lemmas -/

theorem walkSucc_pos_bounds (mwl wlen : Nat) :
    ∀ (l : List Char) (nd : WNode) (i : Nat) (out : List (Nat × Char)),
      walkSucc mwl wlen nd l i = .ok out →
      ∀ q ∈ out, i + 1 ≤ q.1 ∧ q.1 ≤ i + l.length := by
  intro l
  induction l with
  | nil =>
    intro nd i out h q hq
    simp only [walkSucc, Except.ok.injEq] at h
    subst h
    cases hq
  | cons c rest ih =>
    intro nd i out h q hq
    simp only [walkSucc] at h
    split at h
    · cases h
    · simp only [Except.ok.injEq] at h
      subst h
      cases hq
    · next nd' heq =>
      split at h
      · split at h
        · cases h
        · next L hgd =>
          split at h
          · cases h
          · next tail hw =>
            simp only [Except.ok.injEq] at h
            subst h
            rcases List.mem_cons.mp hq with rfl | hq
            · simp only [List.length_cons]
              omega
            · have := ih nd' (i + 1) tail hw q hq
              simp only [List.length_cons]
              omega
      · split at h
        · cases h
        · next tail hw =>
          simp only [Except.ok.injEq] at h
          subst h
          have := ih nd' (i + 1) tail hw q hq
          simp only [List.length_cons]
          omega

theorem lookupChild_trie_no_dollar (t : MTrie) (c : Char) (hc : c ≠ '$') :
    lookupChild (.trie t) c = .ok none ∨
    ∃ t' : MTrie, lookupChild (.trie t) c = .ok (some (.trie t')) := by
  simp only [lookupChild]
  by_cases h1 : c = '.'
  · rw [if_pos h1]
    cases ht : t.dotOf with
    | nil => left; rfl
    | node a b d => right; exact ⟨.node a b d, rfl⟩
  · rw [if_neg h1]
    by_cases h2 : c = '-'
    · rw [if_pos h2]
      cases ht : t.dashOf with
      | nil => left; rfl
      | node a b d => right; exact ⟨.node a b d, rfl⟩
    · rw [if_neg h2, if_neg hc]
      left; rfl

theorem getDollar_of_hasDollar (t : MTrie) (h : hasDollar (.trie t) = true) :
    ∃ L, getDollar (.trie t) = .ok L := by
  simp only [hasDollar, Option.isSome_iff_exists] at h
  obtain ⟨L, hL⟩ := h
  exact ⟨L, by simp only [getDollar, hL]⟩

theorem walkSucc_ok_of_no_dollar (mwl wlen : Nat) :
    ∀ (l : List Char), '$' ∉ l → ∀ (t : MTrie) (i : Nat),
      ∃ out, walkSucc mwl wlen (.trie t) l i = .ok out := by
  intro l
  induction l with
  | nil => exact fun _ t i => ⟨[], rfl⟩
  | cons c rest ih =>
    intro hd t i
    rw [List.mem_cons, not_or] at hd
    obtain ⟨hd1, hd2⟩ := hd
    have hc : c ≠ '$' := fun h => hd1 h.symm
    rcases lookupChild_trie_no_dollar t c hc with hlc | ⟨t', hlc⟩
    · exact ⟨[], by simp only [walkSucc, hlc]⟩
    · obtain ⟨tail, htail⟩ := ih hd2 t' (i + 1)
      by_cases hdl : (hasDollar (.trie t') && decide (wlen < mwl)) = true
      · obtain ⟨L, hL⟩ := getDollar_of_hasDollar t' (Bool.and_elim_left hdl)
        exact ⟨(i + 1, L) :: tail, by simp only [walkSucc, hlc, hdl, if_true, hL, htail]⟩
      · exact ⟨tail, by simp [walkSucc, hlc, hdl, htail]⟩

theorem lookupChild_height (nd nd' : WNode) (c : Char)
    (h : lookupChild nd c = .ok (some nd')) : heightW nd' < heightW nd := by
  cases nd with
  | str s =>
    simp only [lookupChild] at h
    split at h
    · cases h
    · cases h
  | trie t =>
    simp only [lookupChild] at h
    split at h
    · cases t with
      | nil => cases h
      | node a d hh =>
        cases d with
        | nil => cases h
        | node a' d' h' =>
          simp only [MTrie.dotOf, childOpt, Except.ok.injEq, Option.some.injEq] at h
          subst h
          simp only [heightW, heightT]
          omega
    · split at h
      · cases t with
        | nil => cases h
        | node a d hh =>
          cases hh with
          | nil => cases h
          | node a' d' h' =>
            simp only [MTrie.dashOf, childOpt, Except.ok.injEq, Option.some.injEq] at h
            subst h
            simp only [heightW, heightT]
            omega
      · split at h
        · cases t with
          | nil => cases h
          | node a d hh =>
            cases a with
            | none => cases h
            | some L =>
              simp only [MTrie.termOf, Option.map, Except.ok.injEq, Option.some.injEq] at h
              subst h
              simp only [heightW, heightT]
              omega
        · cases h

theorem walkSucc_length (mwl wlen : Nat) :
    ∀ (l : List Char) (nd : WNode) (i : Nat) (out : List (Nat × Char)),
      walkSucc mwl wlen nd l i = .ok out → out.length ≤ heightW nd := by
  intro l
  induction l with
  | nil =>
    intro nd i out h
    simp only [walkSucc, Except.ok.injEq] at h
    subst h
    simp
  | cons c rest ih =>
    intro nd i out h
    simp only [walkSucc] at h
    split at h
    · cases h
    · simp only [Except.ok.injEq] at h
      subst h
      simp
    · next nd' heq =>
      have hlt := lookupChild_height nd nd' c heq
      split at h
      · split at h
        · cases h
        · next L hgd =>
          split at h
          · cases h
          · next tail hw =>
            simp only [Except.ok.injEq] at h
            subst h
            have := ih nd' (i + 1) tail hw
            simp only [List.length_cons]
            omega
      · split at h
        · cases h
        · next tail hw =>
          simp only [Except.ok.injEq] at h
          subst h
          have := ih nd' (i + 1) tail hw
          omega

/-! ## Per-state and per-generation lemmas -/

theorem handleState_ok_of_no_dollar (bits : List Char) (dict : List String) (mwl : Nat)
    (s : SState) (hd : '$' ∉ bits) :
    ∃ pr, handleState bits dict mwl s = .ok pr := by
  rw [handleState]
  by_cases hn : s.pos = bits.length
  · rw [if_pos hn]
    split
    · exact ⟨_, rfl⟩
    · exact ⟨_, rfl⟩
  · rw [if_neg hn]
    have hd' : '$' ∉ bits.drop s.pos := fun h => hd (List.drop_subset _ _ h)
    obtain ⟨out, hout⟩ :=
      walkSucc_ok_of_no_dollar mwl s.word.length (bits.drop s.pos) hd' MORSE_TRIE s.pos
    rw [hout]
    exact ⟨_, rfl⟩

theorem handleState_succ_facts (bits : List Char) (dict : List String) (mwl : Nat)
    (s : SState) (hpos : s.pos ≤ bits.length) (res : List (String × Int)) (succ : List SState)
    (h : handleState bits dict mwl s = .ok (res, succ)) :
    ∀ x ∈ succ, x.pos ≤ bits.length ∧
      stateMeasure bits.length x < stateMeasure bits.length s := by
  rw [handleState] at h
  by_cases hn : s.pos = bits.length
  · rw [if_pos hn] at h
    split at h <;>
      (simp only [Except.ok.injEq, Prod.mk.injEq] at h; obtain ⟨h1, h2⟩ := h; subst h2;
       intro x hx; cases hx)
  · rw [if_neg hn] at h
    have hlt : s.pos < bits.length := lt_of_le_of_ne hpos hn
    split at h
    · cases h
    · next raw hraw =>
      simp only [Except.ok.injEq, Prod.mk.injEq] at h
      obtain ⟨h1, h2⟩ := h
      subst h2
      intro x hx
      rcases List.mem_append.mp hx with hx | hx
      · rcases List.mem_map.mp hx with ⟨q, hq, rfl⟩
        have hb := walkSucc_pos_bounds mwl s.word.length (bits.drop s.pos)
          (.trie MORSE_TRIE) s.pos raw hraw q hq
        have hdrop : (bits.drop s.pos).length = bits.length - s.pos :=
          List.length_drop _ _
        constructor
        · show q.1 ≤ bits.length
          omega
        · show 2 * (bits.length - q.1) + (if (s.word.push q.2) = "" then 0 else 1) <
            2 * (bits.length - s.pos) + (if s.word = "" then 0 else 1)
          have e1 : (if (s.word.push q.2) = "" then (0:Nat) else 1) ≤ 1 := by split <;> omega
          have e2 : (0:Nat) ≤ (if s.word = "" then 0 else 1) := by omega
          omega
      · split at hx
        · next hw =>
          rcases List.mem_singleton.mp hx with rfl
          refine ⟨hpos, ?_⟩
          show 2 * (bits.length - s.pos) + (if ("" : String) = "" then 0 else 1) <
            2 * (bits.length - s.pos) + (if s.word = "" then 0 else 1)
          rw [if_pos rfl, if_neg hw.1]
          omega
        · cases hx

theorem handleState_succ_count (bits : List Char) (dict : List String) (mwl : Nat)
    (s : SState) (res : List (String × Int)) (succ : List SState)
    (h : handleState bits dict mwl s = .ok (res, succ)) : succ.length ≤ 6 := by
  rw [handleState] at h
  by_cases hn : s.pos = bits.length
  · rw [if_pos hn] at h
    split at h <;>
      (simp only [Except.ok.injEq, Prod.mk.injEq] at h; obtain ⟨h1, h2⟩ := h; subst h2; simp)
  · rw [if_neg hn] at h
    split at h
    · cases h
    · next raw hraw =>
      simp only [Except.ok.injEq, Prod.mk.injEq] at h
      obtain ⟨h1, h2⟩ := h
      subst h2
      have hr : raw.length ≤ 5 := by
        have := walkSucc_length mwl s.word.length (bits.drop s.pos)
          (.trie MORSE_TRIE) s.pos raw hraw
        have hh : heightW (.trie MORSE_TRIE) = 5 := by decide
        omega
      have hwb : (if s.word ≠ "" ∧ s.word ∈ dict then
          [SState.mk s.pos "" (s.sentence ++ [s.word])
            (s.score + score_word s.word dict - 4)] else []).length ≤ 1 := by
        split <;> simp
      rw [List.length_append, List.length_map]
      omega

theorem handleState_sentence_facts (bits : List Char) (dict : List String) (mwl : Nat)
    (s : SState) (hs : ∀ w ∈ s.sentence, w ∈ dict ∧ w ≠ "")
    (res : List (String × Int)) (succ : List SState)
    (h : handleState bits dict mwl s = .ok (res, succ)) :
    (∀ p ∈ res, ∃ ws, ws ≠ [] ∧ p.1 = joinWords ws ∧ ∀ w ∈ ws, w ∈ dict ∧ w ≠ "") ∧
    (∀ x ∈ succ, ∀ w ∈ x.sentence, w ∈ dict ∧ w ≠ "") := by
  rw [handleState] at h
  by_cases hn : s.pos = bits.length
  · rw [if_pos hn] at h
    split at h
    · next hw =>
      simp only [Except.ok.injEq, Prod.mk.injEq] at h
      obtain ⟨h1, h2⟩ := h
      subst h1; subst h2
      refine ⟨fun p hp => ?_, fun x hx => absurd hx (List.not_mem_nil x)⟩
      rcases List.mem_singleton.mp hp with rfl
      refine ⟨s.sentence ++ [s.word], by simp, rfl, fun w hw' => ?_⟩
      rcases List.mem_append.mp hw' with hw' | hw'
      · exact hs w hw'
      · rcases List.mem_singleton.mp hw' with rfl
        exact ⟨hw.2, hw.1⟩
    · simp only [Except.ok.injEq, Prod.mk.injEq] at h
      obtain ⟨h1, h2⟩ := h
      subst h1; subst h2
      exact ⟨fun p hp => absurd hp (List.not_mem_nil p),
        fun x hx => absurd hx (List.not_mem_nil x)⟩
  · rw [if_neg hn] at h
    split at h
    · cases h
    · next raw hraw =>
      simp only [Except.ok.injEq, Prod.mk.injEq] at h
      obtain ⟨h1, h2⟩ := h
      subst h1; subst h2
      refine ⟨fun p hp => absurd hp (List.not_mem_nil p), fun x hx => ?_⟩
      rcases List.mem_append.mp hx with hx | hx
      · rcases List.mem_map.mp hx with ⟨q, hq, rfl⟩
        exact hs
      · split at hx
        · next hw =>
          rcases List.mem_singleton.mp hx with rfl
          intro w hw'
          rcases List.mem_append.mp hw' with hw' | hw'
          · exact hs w hw'
          · rcases List.mem_singleton.mp hw' with rfl
            exact ⟨hw.2, hw.1⟩
        · cases hx

theorem runGen_ok_of_no_dollar (bits : List Char) (dict : List String) (mwl : Nat)
    (hd : '$' ∉ bits) :
    ∀ (S : List SState) (v : Memo), ∃ out, runGen bits dict mwl S v = .ok out := by
  intro S
  induction S with
  | nil => exact fun v => ⟨_, rfl⟩
  | cons s rest ih =>
    intro v
    by_cases hm : memoSkip v (s.pos, s.word) s.score = true
    · obtain ⟨out, hout⟩ := ih v
      exact ⟨out, by simp only [runGen, hm, if_true, hout]⟩
    · obtain ⟨⟨r0, l0⟩, hE⟩ := handleState_ok_of_no_dollar bits dict mwl s hd
      obtain ⟨⟨res', succ', v'⟩, hR⟩ := ih (((s.pos, s.word), s.score) :: v)
      refine ⟨(r0 ++ res', l0 ++ succ', v'), ?_⟩
      simp [runGen, hm, hE, hR]

theorem runGen_origin (bits : List Char) (dict : List String) (mwl : Nat) :
    ∀ (S : List SState) (v : Memo) (res : List (String × Int)) (succ : List SState) (v' : Memo),
      runGen bits dict mwl S v = .ok (res, succ, v') →
      (∀ x ∈ succ, ∃ s ∈ S, ∃ r0 l0,
          handleState bits dict mwl s = .ok (r0, l0) ∧ x ∈ l0) ∧
      (∀ p ∈ res, ∃ s ∈ S, ∃ r0 l0,
          handleState bits dict mwl s = .ok (r0, l0) ∧ p ∈ r0) := by
  intro S
  induction S with
  | nil =>
    intro v res succ v' h
    simp only [runGen, Except.ok.injEq, Prod.mk.injEq] at h
    obtain ⟨h1, h2, h3⟩ := h
    subst h1; subst h2
    exact ⟨fun x hx => absurd hx (List.not_mem_nil x),
      fun p hp => absurd hp (List.not_mem_nil p)⟩
  | cons s rest ih =>
    intro v res succ v' h
    simp only [runGen] at h
    split at h
    · obtain ⟨ih1, ih2⟩ := ih v res succ v' h
      refine ⟨fun x hx => ?_, fun p hp => ?_⟩
      · obtain ⟨s', hs', r0, l0, hE, hx0⟩ := ih1 x hx
        exact ⟨s', List.mem_cons_of_mem _ hs', r0, l0, hE, hx0⟩
      · obtain ⟨s', hs', r0, l0, hE, hp0⟩ := ih2 p hp
        exact ⟨s', List.mem_cons_of_mem _ hs', r0, l0, hE, hp0⟩
    · split at h
      · cases h
      · next r0 l0 hE =>
        split at h
        · cases h
        · next ra sa va hR =>
          simp only [Except.ok.injEq, Prod.mk.injEq] at h
          obtain ⟨h1, h2, h3⟩ := h
          subst h1; subst h2
          obtain ⟨ih1, ih2⟩ := ih (((s.pos, s.word), s.score) :: v) ra sa va hR
          refine ⟨fun x hx => ?_, fun p hp => ?_⟩
          · rcases List.mem_append.mp hx with hx | hx
            · exact ⟨s, List.mem_cons_self _ _, r0, l0, hE, hx⟩
            · obtain ⟨s', hs', ra, la, hEa, hxa⟩ := ih1 x hx
              exact ⟨s', List.mem_cons_of_mem _ hs', ra, la, hEa, hxa⟩
          · rcases List.mem_append.mp hp with hp | hp
            · exact ⟨s, List.mem_cons_self _ _, r0, l0, hE, hp⟩
            · obtain ⟨s', hs', ra, la, hEa, hpa⟩ := ih2 p hp
              exact ⟨s', List.mem_cons_of_mem _ hs', ra, la, hEa, hpa⟩

theorem runGen_succ_count (bits : List Char) (dict : List String) (mwl : Nat) :
    ∀ (S : List SState) (v : Memo) (res : List (String × Int)) (succ : List SState) (v' : Memo),
      runGen bits dict mwl S v = .ok (res, succ, v') → succ.length ≤ 6 * S.length := by
  intro S
  induction S with
  | nil =>
    intro v res succ v' h
    simp only [runGen, Except.ok.injEq, Prod.mk.injEq] at h
    obtain ⟨h1, h2, h3⟩ := h
    subst h2
    simp
  | cons s rest ih =>
    intro v res succ v' h
    simp only [runGen] at h
    split at h
    · have := ih v res succ v' h
      simp only [List.length_cons]
      omega
    · split at h
      · cases h
      · next r0 l0 hE =>
        split at h
        · cases h
        · next ra sa va hR =>
          simp only [Except.ok.injEq, Prod.mk.injEq] at h
          obtain ⟨h1, h2, h3⟩ := h
          subst h2
          have hc := handleState_succ_count bits dict mwl s r0 l0 hE
          have := ih (((s.pos, s.word), s.score) :: v) ra sa va hR
          rw [List.length_append]
          simp only [List.length_cons]
          omega

/-! ## Loop-level lemmas -/

theorem decodeLoop_nil (bw mwl : Nat) (bits : List Char) (dict : List String)
    (fuel : Nat) (v : Memo) (res : List (String × Int)) :
    decodeLoop bw mwl bits dict fuel [] v res = .ok res := by
  cases fuel <;> rfl

theorem mem_take_sortDesc (key : α → Int) (l : List α) (k : Nat) (x : α)
    (h : x ∈ (sortDesc key l).take k) : x ∈ l :=
  (mem_sortDesc key l x).mp (List.take_subset _ _ h)

theorem decodeLoop_fuel_free (bw mwl : Nat) (bits : List Char) (dict : List String) :
    ∀ (m : Nat) (S : List SState) (v : Memo) (res : List (String × Int)) (f1 f2 : Nat),
      (∀ s ∈ S, s.pos ≤ bits.length ∧ stateMeasure bits.length s ≤ m) →
      m < f1 → m < f2 →
      decodeLoop bw mwl bits dict f1 S v res = decodeLoop bw mwl bits dict f2 S v res := by
  intro m
  induction m with
  | zero =>
    intro S v res f1 f2 hS h1 h2
    cases S with
    | nil => rw [decodeLoop_nil, decodeLoop_nil]
    | cons s rest =>
      cases f1 with
      | zero => omega
      | succ g1 =>
        cases f2 with
        | zero => omega
        | succ g2 =>
          simp only [decodeLoop]
          cases hR : runGen bits dict mwl (s :: rest) v with
          | error e => rfl
          | ok out =>
            obtain ⟨newRes, succ, v'⟩ := out
            have hempty : succ = [] := by
              rw [List.eq_nil_iff_forall_not_mem]
              intro x hx
              obtain ⟨s', hs', r0, l0, hE, hx0⟩ := (runGen_origin bits dict mwl _ _ _ _ _ hR).1 x hx
              have hfacts := handleState_succ_facts bits dict mwl s' (hS s' hs').1 r0 l0 hE x hx0
              have := (hS s' hs').2
              omega
            subst hempty
            simp only [sortDesc, List.take_nil]
            rw [decodeLoop_nil, decodeLoop_nil]
  | succ m ihm =>
    intro S v res f1 f2 hS h1 h2
    cases S with
    | nil => rw [decodeLoop_nil, decodeLoop_nil]
    | cons s rest =>
      cases f1 with
      | zero => omega
      | succ g1 =>
        cases f2 with
        | zero => omega
        | succ g2 =>
          simp only [decodeLoop]
          cases hR : runGen bits dict mwl (s :: rest) v with
          | error e => rfl
          | ok out =>
            obtain ⟨newRes, succ, v'⟩ := out
            apply ihm _ v' (res ++ newRes) g1 g2 ?_ (by omega) (by omega)
            intro x hx
            have hx' : x ∈ succ := mem_take_sortDesc _ _ _ _ hx
            obtain ⟨s', hs', r0, l0, hE, hx0⟩ := (runGen_origin bits dict mwl _ _ _ _ _ hR).1 x hx'
            have hfacts := handleState_succ_facts bits dict mwl s' (hS s' hs').1 r0 l0 hE x hx0
            have := (hS s' hs').2
            exact ⟨hfacts.1, by omega⟩

theorem decodeLoop_ok_of_no_dollar (bw mwl : Nat) (bits : List Char) (dict : List String)
    (hd : '$' ∉ bits) :
    ∀ (m : Nat) (S : List SState) (v : Memo) (res : List (String × Int)) (fuel : Nat),
      (∀ s ∈ S, s.pos ≤ bits.length ∧ stateMeasure bits.length s ≤ m) →
      m < fuel →
      ∃ out, decodeLoop bw mwl bits dict fuel S v res = .ok out := by
  intro m
  induction m with
  | zero =>
    intro S v res fuel hS hf
    cases S with
    | nil => exact ⟨res, decodeLoop_nil _ _ _ _ _ _ _⟩
    | cons s rest =>
      cases fuel with
      | zero => omega
      | succ g =>
        simp only [decodeLoop]
        obtain ⟨⟨newRes, succ, v'⟩, hR⟩ := runGen_ok_of_no_dollar bits dict mwl hd (s :: rest) v
        rw [hR]
        have hempty : succ = [] := by
          rw [List.eq_nil_iff_forall_not_mem]
          intro x hx
          obtain ⟨s', hs', r0, l0, hE, hx0⟩ := (runGen_origin bits dict mwl _ _ _ _ _ hR).1 x hx
          have hfacts := handleState_succ_facts bits dict mwl s' (hS s' hs').1 r0 l0 hE x hx0
          have := (hS s' hs').2
          omega
        subst hempty
        simp only [sortDesc, List.take_nil]
        exact ⟨_, decodeLoop_nil _ _ _ _ _ _ _⟩
  | succ m ihm =>
    intro S v res fuel hS hf
    cases S with
    | nil => exact ⟨res, decodeLoop_nil _ _ _ _ _ _ _⟩
    | cons s rest =>
      cases fuel with
      | zero => omega
      | succ g =>
        simp only [decodeLoop]
        obtain ⟨⟨newRes, succ, v'⟩, hR⟩ := runGen_ok_of_no_dollar bits dict mwl hd (s :: rest) v
        rw [hR]
        apply ihm _ v' (res ++ newRes) g ?_ (by omega)
        intro x hx
        have hx' : x ∈ succ := mem_take_sortDesc _ _ _ _ hx
        obtain ⟨s', hs', r0, l0, hE, hx0⟩ := (runGen_origin bits dict mwl _ _ _ _ _ hR).1 x hx'
        have hfacts := handleState_succ_facts bits dict mwl s' (hS s' hs').1 r0 l0 hE x hx0
        have := (hS s' hs').2
        exact ⟨hfacts.1, by omega⟩

theorem decodeLoop_invariant (bw mwl : Nat) (bits : List Char) (dict : List String) :
    ∀ (fuel : Nat) (S : List SState) (v : Memo) (res : List (String × Int))
      (out : List (String × Int)),
      (∀ s ∈ S, ∀ w ∈ s.sentence, w ∈ dict ∧ w ≠ "") →
      (∀ p ∈ res, ∃ ws, ws ≠ [] ∧ p.1 = joinWords ws ∧ ∀ w ∈ ws, w ∈ dict ∧ w ≠ "") →
      decodeLoop bw mwl bits dict fuel S v res = .ok out →
      ∀ p ∈ out, ∃ ws, ws ≠ [] ∧ p.1 = joinWords ws ∧ ∀ w ∈ ws, w ∈ dict ∧ w ≠ "" := by
  intro fuel
  induction fuel with
  | zero =>
    intro S v res out hS hres h
    cases S with
    | nil =>
      rw [decodeLoop_nil] at h
      simp only [Except.ok.injEq] at h
      subst h
      exact hres
    | cons s rest => cases h
  | succ fuel ih =>
    intro S v res out hS hres h
    cases S with
    | nil =>
      rw [decodeLoop_nil] at h
      simp only [Except.ok.injEq] at h
      subst h
      exact hres
    | cons s rest =>
      simp only [decodeLoop] at h
      split at h
      · cases h
      · next newRes succ v' hR =>
        refine ih _ v' (res ++ newRes) out ?_ ?_ h
        · intro x hx
          obtain ⟨s', hs', r0, l0, hE, hx0⟩ :=
            (runGen_origin bits dict mwl _ _ _ _ _ hR).1 x (mem_take_sortDesc _ _ _ _ hx)
          exact (handleState_sentence_facts bits dict mwl s' (hS s' hs') r0 l0 hE).2 x hx0
        · intro p hp
          rcases List.mem_append.mp hp with hp | hp
          · exact hres p hp
          · obtain ⟨s', hs', r0, l0, hE, hp0⟩ :=
              (runGen_origin bits dict mwl _ _ _ _ _ hR).2 p hp
            exact (handleState_sentence_facts bits dict mwl s' (hS s' hs') r0 l0 hE).1 p hp0

theorem decodeLoop_beam_free (mwl : Nat) (bits : List Char) (dict : List String) :
    ∀ (fuel : Nat) (S : List SState) (v : Memo) (res : List (String × Int)) (b1 b2 : Nat),
      S.length * 6 ^ fuel ≤ b1 → b1 ≤ b2 →
      decodeLoop b1 mwl bits dict fuel S v res = decodeLoop b2 mwl bits dict fuel S v res := by
  intro fuel
  induction fuel with
  | zero =>
    intro S v res b1 b2 hb hb12
    cases S with
    | nil => rw [decodeLoop_nil, decodeLoop_nil]
    | cons s rest => rfl
  | succ fuel ih =>
    intro S v res b1 b2 hb hb12
    cases S with
    | nil => rw [decodeLoop_nil, decodeLoop_nil]
    | cons s rest =>
      simp only [decodeLoop]
      cases hR : runGen bits dict mwl (s :: rest) v with
      | error e => rfl
      | ok out =>
        obtain ⟨newRes, succ, v'⟩ := out
        have hcnt : succ.length ≤ 6 * (s :: rest).length :=
          runGen_succ_count bits dict mwl _ _ _ _ _ hR
        have h6 : 6 * (s :: rest).length ≤ (s :: rest).length * 6 ^ (fuel + 1) := by
          have : (6:Nat) ^ 1 ≤ 6 ^ (fuel + 1) := Nat.pow_le_pow_right (by omega) (by omega)
          calc 6 * (s :: rest).length = (s :: rest).length * 6 ^ 1 := by ring
            _ ≤ (s :: rest).length * 6 ^ (fuel + 1) := Nat.mul_le_mul_left _ this
        have hlen : (sortDesc (fun x => x.score) succ).length = succ.length :=
          length_sortDesc _ _
        have ht1 : (sortDesc (fun x => x.score) succ).take b1 =
            sortDesc (fun x => x.score) succ :=
          List.take_of_length_le (by omega)
        have ht2 : (sortDesc (fun x => x.score) succ).take b2 =
            sortDesc (fun x => x.score) succ :=
          List.take_of_length_le (by omega)
        dsimp only
        rw [ht1, ht2]
        apply ih _ v' (res ++ newRes) b1 b2 ?_ hb12
        calc (sortDesc (fun x => x.score) succ).length * 6 ^ fuel
            = succ.length * 6 ^ fuel := by rw [hlen]
          _ ≤ (6 * (s :: rest).length) * 6 ^ fuel := Nat.mul_le_mul_right _ hcnt
          _ = (s :: rest).length * 6 ^ (fuel + 1) := by ring
          _ ≤ b1 := hb

/-! ## Scoring model lemmas -/

theorem lookupFreq_eq_none (l : List (Char × Int)) (c : Char)
    (h : ∀ p ∈ l, p.1 ≠ c) : lookupFreq l c = none := by
  induction l with
  | nil => rfl
  | cons p rest ih =>
    obtain ⟨k, v⟩ := p
    simp only [lookupFreq]
    rw [if_neg (h (k, v) (List.mem_cons_self _ _))]
    exact ih fun q hq => h q (List.mem_cons_of_mem _ hq)

theorem foldl_score_letter (l : List Char) (a : Int) :
    l.foldl (fun s c => s + score_letter c) a = a + (l.map score_letter).sum := by
  induction l generalizing a with
  | nil => simp
  | cons c cs ih => rw [List.foldl_cons, ih, List.map_cons, List.sum_cons]; ring

/-- C6: for every word and dictionary, `score_word` is the sum of
`score_letter` over the word's characters, plus 100 (the scaled 5.0 bonus)
exactly when the word is a dictionary member, minus 40 (the scaled 2.0
penalty) exactly when the word is longer than 12 characters; `score_letter`
returns the tabulated scaled weight for each of the eleven listed
high-frequency letters (E = 20, T = 18, ..., D = 13, i.e. 1.0 down to 0.65)
and the scaled default 5 (= 0.25) for every other character. -/
theorem C6_scoring :
    (∀ (word : String) (dict : List String),
        score_word word dict =
          (word.toList.map score_letter).sum
            + (if word ∈ dict then 100 else 0)
            - (if 12 < word.length then 40 else 0)) ∧
    (∀ p ∈ LETTER_FREQ, score_letter p.1 = p.2) ∧
    (∀ c : Char, c ∉ LETTER_FREQ.map Prod.fst → score_letter c = 5) := by
  refine ⟨fun word dict => ?_, by decide, fun c hc => ?_⟩
  · by_cases h1 : word ∈ dict <;> by_cases h2 : 12 < word.length <;>
      simp [score_word, foldl_score_letter, h1, h2, gt_iff_lt]
  · have hnone : lookupFreq LETTER_FREQ c = none :=
      lookupFreq_eq_none _ _ fun p hp he =>
        hc (he ▸ List.mem_map_of_mem Prod.fst hp)
    simp [score_letter, hnone]

/-- C6 witness: the character x is not one of the eleven tabulated letters
and receives the default score. -/
theorem C6_scoring_witness :
    'x' ∉ LETTER_FREQ.map Prod.fst ∧ score_letter 'x' = 5 :=
  ⟨by decide, C6_scoring.2.2 'x' (by decide)⟩

/-! ## Claims about concrete decoder runs -/

/-- C2: with dictionary {HI} and bitstream 111111, the normal-polarity decode
(1 mapped to dot, giving the six-dot sequence) returns exactly the ranked list
[(HI, 158)], where 158 is the scaled 7.9 = 0.7 + 0.75 + (0.7 + 0.75 + 5.0) =
score_letter H + score_letter I + score_word HI; the inverted-polarity decode
of the same bitstream (all dashes) returns the empty result list. -/
theorem C2_scenario_HI :
    decode_with_polarity "111111".toList ["HI"] false = Except.ok [("HI", 158)] ∧
    score_letter 'H' + score_letter 'I' + score_word "HI" ["HI"] = 158 ∧
    decode_with_polarity "111111".toList ["HI"] true = Except.ok [] :=
  ⟨rfl, by decide, rfl⟩

/-- C1 counterexample: on the empty symbol sequence the initial state reaches
position = n = 0 with an empty partial word, yet the decoder adds nothing to
the results — the claimed finalization (joinWords [], 0) = (empty text, 0) is
never produced, and the decode returns the empty list. -/
theorem C1_counterexample :
    brute_force_decode BEAM_WIDTH MAX_WORD_LEN MAX_RESULTS [] ["HI"] = Except.ok [] ∧
    joinWords [] = "" :=
  ⟨rfl, rfl⟩

/-- C1 (amended): when a non-memo-dominated state with position = n is
processed, the generation adds its finalization to the results exactly when
its partial word is non-empty and a dictionary member (appending the word to
the sentence and adding its word score), records its memo entry, and
contributes no successor states at all. -/
theorem C1_end_of_sequence (bits : List Char) (dict : List String) (mwl : Nat)
    (s : SState) (rest : List SState) (v : Memo)
    (hn : s.pos = bits.length)
    (hm : memoSkip v (s.pos, s.word) s.score = false) :
    runGen bits dict mwl (s :: rest) v =
      (runGen bits dict mwl rest (((s.pos, s.word), s.score) :: v)).map
        (fun out =>
          ((if s.word ≠ "" ∧ s.word ∈ dict then
              [(joinWords (s.sentence ++ [s.word]), s.score + score_word s.word dict)]
            else []) ++ out.1, out.2.1, out.2.2)) := by
  simp only [runGen, hm, Bool.false_eq_true, if_false, handleState, if_pos hn]
  by_cases hw : s.word ≠ "" ∧ s.word ∈ dict
  · rw [if_pos hw, if_pos hw]
    cases hR : runGen bits dict mwl rest (((s.pos, s.word), s.score) :: v) with
    | error e => simp [Except.map]
    | ok out => obtain ⟨res', succ', v'⟩ := out; simp [Except.map]
  · rw [if_neg hw, if_neg hw]
    cases hR : runGen bits dict mwl rest (((s.pos, s.word), s.score) :: v) with
    | error e => simp [Except.map]
    | ok out => obtain ⟨res', succ', v'⟩ := out; simp [Except.map]

/-- C1 witness: the amended end-of-sequence behavior at a concrete state with
empty bits, empty partial word and dictionary {HI}. -/
theorem C1_end_of_sequence_witness :
    (SState.mk 0 "" [] 0).pos = ([] : List Char).length ∧
    memoSkip [] (0, "") 0 = false ∧
    runGen [] ["HI"] MAX_WORD_LEN [SState.mk 0 "" [] 0] [] =
      (runGen [] ["HI"] MAX_WORD_LEN [] [((0, ""), 0)]).map
        (fun out =>
          ((if ("" : String) ≠ "" ∧ ("" : String) ∈ ["HI"] then
              [(joinWords ([] ++ [""]), 0 + score_word "" ["HI"])]
            else []) ++ out.1, out.2.1, out.2.2)) :=
  ⟨rfl, rfl, C1_end_of_sequence [] ["HI"] MAX_WORD_LEN (SState.mk 0 "" [] 0) [] [] rfl rfl⟩

/-- C8 counterexample: the bitstream 1$E contains characters outside {0,1},
and decoding it raises a TypeError instead of returning a result list: the
walk follows the dot edge for 1, then steps through the terminal key $ onto
the stored letter string E, and indexing that string with the character E
fails. -/
theorem C8_counterexample :
    decode_with_polarity "1$E".toList ["HI"] false = Except.error PyErr.typeError :=
  rfl

/-- C3 counterexample: on the six-dot symbol sequence with dictionary
{EE, I}, beam width 1 yields top-1 score 532 (sentence EE EE EE) while the
strictly larger beam width 3 yields top-1 score 482: increasing the beam
width decreased the top-1 score, because the extra states explored by the
wider beam write memo entries that later dominate and prune the path kept by
the narrow beam. -/
theorem C3_counterexample :
    brute_force_decode 1 MAX_WORD_LEN MAX_RESULTS "......".toList ["EE", "I"] =
      Except.ok [("EE EE EE", 532)] ∧
    brute_force_decode 3 MAX_WORD_LEN MAX_RESULTS "......".toList ["EE", "I"] =
      Except.ok [("EE I EE", 482), ("EE I I", 432), ("I I EE", 432), ("I I I", 382)] ∧
    ¬ ((532 : Int) ≤ 482) :=
  ⟨rfl, rfl, by decide⟩

/-- C4: every successful decode returns at most `mr` results (the repository
runs with mr = MAX_RESULTS = 20), sorted in descending order of score. -/
theorem C4_length_sorted (bw mwl mr : Nat) (bits : List Char) (dict : List String)
    (r : List (String × Int))
    (h : brute_force_decode bw mwl mr bits dict = Except.ok r) :
    r.length ≤ mr ∧ r.Pairwise (fun a b => b.2 ≤ a.2) := by
  rw [brute_force_decode] at h
  cases hL : decodeLoop bw mwl bits dict (2 * bits.length + 1) [SState.mk 0 "" [] 0] [] [] with
  | error e => rw [hL] at h; exact absurd h (by simp)
  | ok res =>
    rw [hL] at h
    simp only [Except.ok.injEq] at h
    subst h
    refine ⟨?_, ?_⟩
    · rw [List.length_take]
      exact min_le_left _ _
    · exact List.Pairwise.sublist (List.take_sublist _ _) (pairwise_sortDesc _ res)

/-- C4 witness: the decode of the six-dot sequence with dictionary {HI}
satisfies the length bound and descending order. -/
theorem C4_length_sorted_witness :
    brute_force_decode BEAM_WIDTH MAX_WORD_LEN MAX_RESULTS "......".toList ["HI"]
      = Except.ok [("HI", 158)] ∧
    ([("HI", 158)] : List (String × Int)).length ≤ MAX_RESULTS ∧
    ([("HI", 158)] : List (String × Int)).Pairwise (fun a b => b.2 ≤ a.2) :=
  ⟨rfl,
   (C4_length_sorted BEAM_WIDTH MAX_WORD_LEN MAX_RESULTS "......".toList ["HI"] _ rfl).1,
   (C4_length_sorted BEAM_WIDTH MAX_WORD_LEN MAX_RESULTS "......".toList ["HI"] _ rfl).2⟩

/-- C9: for every finite dot/dash symbol sequence, dictionary and
configuration, the generational loop terminates: the decode succeeds, and any
fuel of at least 2n + 1 generations gives the same run as exactly 2n + 1
generations (every successor strictly decreases the state measure, so the
frontier empties within 2n + 1 generations and decode is a total function). -/
theorem C9_termination (bits : List Char) (dict : List String) (bw mwl mr : Nat)
    (hb : ∀ c ∈ bits, c = '.' ∨ c = '-') :
    (∃ r, brute_force_decode bw mwl mr bits dict = Except.ok r) ∧
    (∀ fuel, 2 * bits.length + 1 ≤ fuel →
       decodeLoop bw mwl bits dict fuel [SState.mk 0 "" [] 0] [] [] =
       decodeLoop bw mwl bits dict (2 * bits.length + 1) [SState.mk 0 "" [] 0] [] []) := by
  have hd : '$' ∉ bits := by
    intro h
    rcases hb '$' h with h' | h' <;> exact absurd h' (by decide)
  have hinit : ∀ s ∈ [SState.mk 0 "" [] 0],
      s.pos ≤ bits.length ∧ stateMeasure bits.length s ≤ 2 * bits.length := by
    intro s hs
    rcases List.mem_singleton.mp hs with rfl
    refine ⟨Nat.zero_le _, ?_⟩
    show 2 * (bits.length - 0) + (if ("" : String) = "" then 0 else 1) ≤ 2 * bits.length
    rw [if_pos rfl]
    omega
  constructor
  · obtain ⟨out, hout⟩ := decodeLoop_ok_of_no_dollar bw mwl bits dict hd
      (2 * bits.length) [SState.mk 0 "" [] 0] [] [] (2 * bits.length + 1) hinit (by omega)
    exact ⟨_, by rw [brute_force_decode, hout]⟩
  · intro fuel hf
    exact decodeLoop_fuel_free bw mwl bits dict (2 * bits.length) _ _ _ fuel
      (2 * bits.length + 1) hinit (by omega) (by omega)

/-- C9 witness: the single-dot sequence with dictionary {E} decodes
successfully and the loop is fuel-independent past the bound. -/
theorem C9_termination_witness :
    (∀ c ∈ ['.'], c = '.' ∨ c = '-') ∧
    ((∃ r, brute_force_decode 5 MAX_WORD_LEN MAX_RESULTS ['.'] ["E"] = Except.ok r) ∧
     (∀ fuel, 2 * (['.'] : List Char).length + 1 ≤ fuel →
        decodeLoop 5 MAX_WORD_LEN ['.'] ["E"] fuel [SState.mk 0 "" [] 0] [] [] =
        decodeLoop 5 MAX_WORD_LEN ['.'] ["E"] (2 * (['.'] : List Char).length + 1)
          [SState.mk 0 "" [] 0] [] [])) :=
  ⟨by decide, C9_termination ['.'] ["E"] 5 MAX_WORD_LEN MAX_RESULTS (by decide)⟩

/-- C8 (amended): a bitstream whose characters avoid the literal trie
terminal key never raises: every character outside 0 and 1 other than that
key simply fails to match a trie edge, truncating the branch, and the decode
returns a (possibly empty) result list. -/
theorem C8_no_dollar_ok (bitstream : List Char) (dict : List String) (invert : Bool)
    (hd : '$' ∉ bitstream) :
    ∃ r, decode_with_polarity bitstream dict invert = Except.ok r := by
  rw [decode_with_polarity]
  have step1 : '$' ∉ (if invert
      then bitstream.map (fun c => if c = '1' then '0' else if c = '0' then '1' else c)
      else bitstream) := by
    split
    · intro h
      obtain ⟨c, hc, he⟩ := List.mem_map.mp h
      split at he
      · exact absurd he.symm (by decide)
      · split at he
        · exact absurd he.symm (by decide)
        · exact hd (he ▸ hc)
    · exact hd
  have step2 : '$' ∉ (if invert
      then bitstream.map (fun c => if c = '1' then '0' else if c = '0' then '1' else c)
      else bitstream).map (fun c => if c = '1' then '.' else c) := by
    intro h
    obtain ⟨c, hc, he⟩ := List.mem_map.mp h
    split at he
    · exact absurd he.symm (by decide)
    · exact step1 (he ▸ hc)
  have step3 : '$' ∉ ((if invert
      then bitstream.map (fun c => if c = '1' then '0' else if c = '0' then '1' else c)
      else bitstream).map (fun c => if c = '1' then '.' else c)).map
        (fun c => if c = '0' then '-' else c) := by
    intro h
    obtain ⟨c, hc, he⟩ := List.mem_map.mp h
    split at he
    · exact absurd he.symm (by decide)
    · exact step2 (he ▸ hc)
  set bits2 := ((if invert
      then bitstream.map (fun c => if c = '1' then '0' else if c = '0' then '1' else c)
      else bitstream).map (fun c => if c = '1' then '.' else c)).map
        (fun c => if c = '0' then '-' else c) with hbits2
  have hinit : ∀ s ∈ [SState.mk 0 "" [] 0],
      s.pos ≤ bits2.length ∧ stateMeasure bits2.length s ≤ 2 * bits2.length := by
    intro s hs
    rcases List.mem_singleton.mp hs with rfl
    refine ⟨Nat.zero_le _, ?_⟩
    show 2 * (bits2.length - 0) + (if ("" : String) = "" then 0 else 1) ≤ 2 * bits2.length
    rw [if_pos rfl]
    omega
  obtain ⟨out, hout⟩ := decodeLoop_ok_of_no_dollar BEAM_WIDTH MAX_WORD_LEN bits2 dict step3
    (2 * bits2.length) [SState.mk 0 "" [] 0] [] [] (2 * bits2.length + 1) hinit (by omega)
  exact ⟨_, by rw [brute_force_decode, hout]⟩

/-- C8 witness: the bitstream 1x0 contains a character outside 0 and 1 but no
terminal key, and both polarity decodes return a result list. -/
theorem C8_no_dollar_ok_witness :
    ('$' ∉ ("1x0".toList : List Char)) ∧
    (∃ r, decode_with_polarity "1x0".toList ["HI"] false = Except.ok r) :=
  ⟨by decide, C8_no_dollar_ok "1x0".toList ["HI"] false (by decide)⟩

theorem joinWords_ne_empty (ws : List String) (h0 : ws ≠ [])
    (h1 : ∀ w ∈ ws, w ≠ "") : joinWords ws ≠ "" := by
  match ws with
  | [w] => exact h1 w (List.mem_singleton.mpr rfl)
  | w :: x :: rest =>
    intro he
    have hlen := congrArg String.length he
    rw [joinWords] at hlen
    rw [String.length_append, String.length_append] at hlen
    have hsp : (" " : String).length = 1 := rfl
    have hz : ("" : String).length = 0 := rfl
    omega

/-- C10: every result of a successful decode is a non-empty sentence, the
space-join of a non-empty list of non-empty dictionary words (including the
final word); hence the result text is never empty, and with an empty
dictionary every decode returns the empty list. -/
theorem C10_dictionary_gate (bw mwl mr : Nat) (bits : List Char) (dict : List String)
    (r : List (String × Int))
    (h : brute_force_decode bw mwl mr bits dict = Except.ok r) :
    (∀ p ∈ r, ∃ ws, ws ≠ [] ∧ p.1 = joinWords ws ∧
        (∀ w ∈ ws, w ∈ dict ∧ w ≠ "") ∧ p.1 ≠ "") ∧
    (dict = [] → r = []) := by
  rw [brute_force_decode] at h
  cases hL : decodeLoop bw mwl bits dict (2 * bits.length + 1) [SState.mk 0 "" [] 0] [] [] with
  | error e => rw [hL] at h; exact absurd h (by simp)
  | ok res =>
    rw [hL] at h
    simp only [Except.ok.injEq] at h
    subst h
    have hmain : ∀ p ∈ (sortDesc (fun x => x.2) res).take mr,
        ∃ ws, ws ≠ [] ∧ p.1 = joinWords ws ∧ ∀ w ∈ ws, w ∈ dict ∧ w ≠ "" := by
      intro p hp
      refine decodeLoop_invariant bw mwl bits dict _ _ _ _ _ ?_ ?_ hL p
        (mem_take_sortDesc _ _ _ _ hp)
      · intro s hs
        rcases List.mem_singleton.mp hs with rfl
        intro w hw
        cases hw
      · intro q hq
        cases hq
    refine ⟨fun p hp => ?_, fun hdict => ?_⟩
    · obtain ⟨ws, hne, hj, hws⟩ := hmain p hp
      exact ⟨ws, hne, hj, hws, hj ▸ joinWords_ne_empty ws hne (fun w hw => (hws w hw).2)⟩
    · rw [List.eq_nil_iff_forall_not_mem]
      intro p hp
      obtain ⟨ws, hne, hj, hws⟩ := hmain p hp
      obtain ⟨w, hw⟩ := List.exists_mem_of_ne_nil ws hne
      have := (hws w hw).1
      rw [hdict] at this
      cases this

/-- C10 witness: the six-dot decode with dictionary {HI} satisfies the
invariant, and the empty dictionary yields the empty result list. -/
theorem C10_dictionary_gate_witness :
    (∀ p ∈ ([("HI", 158)] : List (String × Int)), ∃ ws, ws ≠ [] ∧
        p.1 = joinWords ws ∧ (∀ w ∈ ws, w ∈ ["HI"] ∧ w ≠ "") ∧ p.1 ≠ "") ∧
    ((["HI"] : List String) = [] → [("HI", 158)] = ([] : List (String × Int))) :=
  C10_dictionary_gate BEAM_WIDTH MAX_WORD_LEN MAX_RESULTS "......".toList ["HI"]
    [("HI", 158)] rfl

/-- C3 (amended): once both beam widths are at least 6 to the power 2n + 1 —
large enough that the beam never truncates — the decoder's output no longer
depends on the beam width at all, so in particular the top-1 score is equal
(non-decreasing) between the two runs; for smaller beams monotonicity fails,
as the counterexample shows. -/
theorem C3_beam_stable (bits : List Char) (dict : List String) (mwl mr b1 b2 : Nat)
    (h1 : 6 ^ (2 * bits.length + 1) ≤ b1) (h2 : b1 ≤ b2) :
    brute_force_decode b1 mwl mr bits dict = brute_force_decode b2 mwl mr bits dict := by
  rw [brute_force_decode, brute_force_decode,
    decodeLoop_beam_free mwl bits dict (2 * bits.length + 1) [SState.mk 0 "" [] 0] [] []
      b1 b2 (by simpa using h1) h2]

/-! ## Trie characterization -/

theorem childFor_nil (c : Char) : childFor .nil c = .nil := by
  simp only [childFor, MTrie.dotOf, MTrie.dashOf]
  split <;> [rfl; split <;> rfl]

theorem follow_nil (p : List Char) : follow .nil p = .nil := by
  induction p with
  | nil => rfl
  | cons c cs ih => rw [follow, childFor_nil]; exact ih

theorem terminals_spec (p : List Char) :
    ∀ (t : MTrie) (L : Char),
      (follow t p).termOf = some L ↔ (p, L) ∈ terminals t := by
  induction p with
  | nil =>
    intro t L
    cases t with
    | nil => simp [follow, MTrie.termOf, terminals]
    | node t0 d h =>
      cases t0 with
      | none => simp [follow, MTrie.termOf, terminals]
      | some L0 => simp [follow, MTrie.termOf, terminals, eq_comm]
  | cons c cs ih =>
    intro t L
    cases t with
    | nil =>
      rw [follow, childFor_nil, follow_nil]
      simp [MTrie.termOf, terminals]
    | node t0 d h =>
      rw [follow]
      by_cases hdot : c = '.'
      · subst hdot
        have hc : childFor (.node t0 d h) '.' = d := by
          simp [childFor, MTrie.dotOf]
        rw [hc, ih d L]
        cases t0 <;> simp [terminals]
      · by_cases hdash : c = '-'
        · subst hdash
          have hc : childFor (.node t0 d h) '-' = h := by
            simp [childFor, MTrie.dashOf]
          rw [hc, ih h L]
          cases t0 <;> simp [terminals, hdot]
        · have hc : childFor (.node t0 d h) c = .nil := by
            simp [childFor, hdot, hdash]
          rw [hc, follow_nil]
          have hfalse : (c :: cs, L) ∉ terminals (MTrie.node t0 d h) := by
            intro hmem
            simp only [terminals] at hmem
            rcases List.mem_append.mp hmem with hmem | hmem
            · rcases List.mem_append.mp hmem with hmem | hmem
              · cases t0 with
                | none => cases hmem
                | some L0 =>
                  rcases List.mem_singleton.mp hmem with he
                  have := congrArg Prod.fst he
                  cases this
              · obtain ⟨q, hq, he⟩ := List.mem_map.mp hmem
                have h1 := congrArg Prod.fst he
                simp only [List.cons.injEq] at h1
                exact hdot h1.1.symm
            · obtain ⟨q, hq, he⟩ := List.mem_map.mp hmem
              have h1 := congrArg Prod.fst he
              simp only [List.cons.injEq] at h1
              exact hdash h1.1.symm
          simp [MTrie.termOf, hfalse]

/-- C7: the trie built from the 26-entry Morse table has exactly 26 terminal
nodes, and a root path carries a terminal letter exactly when the path is the
dot/dash code of that letter in the table: every letter's terminal node is
reached by following its code, and no other node is terminal. -/
theorem C7_trie_terminals :
    (terminals MORSE_TRIE).length = 26 ∧
    (∀ (p : List Char) (L : Char),
        (follow MORSE_TRIE p).termOf = some L ↔
        (p, L) ∈ MORSE.map (fun q => (q.1.toList, q.2))) := by
  refine ⟨rfl, fun p L => ?_⟩
  rw [terminals_spec]
  constructor
  · intro h
    exact (by decide :
      ∀ x ∈ terminals MORSE_TRIE, x ∈ MORSE.map (fun q => (q.1.toList, q.2))) _ h
  · intro h
    exact (by decide :
      ∀ x ∈ MORSE.map (fun q => (q.1.toList, q.2)), x ∈ terminals MORSE_TRIE) _ h

/-- C7 witness: the code of H reaches the terminal node carrying H. -/
theorem C7_trie_terminals_witness :
    (follow MORSE_TRIE "....".toList).termOf = some 'H' :=
  (C7_trie_terminals.2 "....".toList 'H').mpr (by decide)

/-! ## Aggregator lemmas -/

theorem bestScoreOf_eq_none (b : List (String × Int)) (t : String)
    (h : ∀ p ∈ b, p.1 ≠ t) : bestScoreOf b t = none := by
  induction b with
  | nil => rfl
  | cons q rest ih =>
    obtain ⟨t', s'⟩ := q
    simp only [bestScoreOf]
    rw [if_neg (h (t', s') (List.mem_cons_self _ _))]
    exact ih fun p hp => h p (List.mem_cons_of_mem _ hp)

theorem bestScoreOf_none_forall (b : List (String × Int)) (t : String)
    (h : bestScoreOf b t = none) : ∀ p ∈ b, p.1 ≠ t := by
  induction b with
  | nil => intro p hp; cases hp
  | cons q rest ih =>
    obtain ⟨t', s'⟩ := q
    simp only [bestScoreOf] at h
    split at h
    · cases h
    · next hne =>
      intro p hp
      rcases List.mem_cons.mp hp with rfl | hp
      · exact hne
      · exact ih h p hp

theorem bestScoreOf_mem (b : List (String × Int)) (t : String) (s : Int)
    (h : bestScoreOf b t = some s) : (t, s) ∈ b := by
  induction b with
  | nil => cases h
  | cons q rest ih =>
    obtain ⟨t', s'⟩ := q
    simp only [bestScoreOf] at h
    split at h
    · next he =>
      simp only [Option.some.injEq] at h
      subst he; subst h
      exact List.mem_cons_self _ _
    · exact List.mem_cons_of_mem _ (ih h)

theorem mem_bestScoreOf (b : List (String × Int)) (hnd : (b.map Prod.fst).Nodup)
    (p : String × Int) (hp : p ∈ b) : bestScoreOf b p.1 = some p.2 := by
  induction b with
  | nil => cases hp
  | cons q rest ih =>
    obtain ⟨t', s'⟩ := q
    simp only [List.map_cons, List.nodup_cons] at hnd
    rcases List.mem_cons.mp hp with rfl | hp
    · simp [bestScoreOf]
    · simp only [bestScoreOf]
      rw [if_neg ?_]
      · exact ih hnd.2 hp
      · intro he
        exact hnd.1 (he ▸ List.mem_map_of_mem Prod.fst hp)

theorem updateBest_invariant (pre b : List (String × Int)) (x : String × Int)
    (h1 : (b.map Prod.fst).Nodup)
    (h2 : ∀ p ∈ b, p ∈ pre ∧ ∀ q ∈ pre, q.1 = p.1 → q.2 ≤ p.2)
    (h3 : ∀ q ∈ pre, ∃ p ∈ b, p.1 = q.1) :
    ((updateBest b x.1 x.2).map Prod.fst).Nodup ∧
    (∀ p ∈ updateBest b x.1 x.2,
        p ∈ pre ++ [x] ∧ ∀ q ∈ pre ++ [x], q.1 = p.1 → q.2 ≤ p.2) ∧
    (∀ q ∈ pre ++ [x], ∃ p ∈ updateBest b x.1 x.2, p.1 = q.1) := by
  cases hbs : bestScoreOf b x.1 with
  | none =>
    have hub : updateBest b x.1 x.2 = b ++ [(x.1, x.2)] := by
      simp only [updateBest, hbs]
    rw [hub]
    have hfresh : ∀ p ∈ b, p.1 ≠ x.1 := bestScoreOf_none_forall b x.1 hbs
    refine ⟨?_, ?_, ?_⟩
    · rw [List.map_append, List.nodup_append]
      refine ⟨h1, List.nodup_singleton _, ?_⟩
      intro a ha hb'
      rcases List.mem_map.mp ha with ⟨p, hp, rfl⟩
      exact hfresh p hp (List.mem_singleton.mp hb')
    · intro p hp
      rcases List.mem_append.mp hp with hpb | hpx
      · obtain ⟨hpre, hbound⟩ := h2 p hpb
        refine ⟨List.mem_append_left _ hpre, ?_⟩
        intro q hq hqe
        rcases List.mem_append.mp hq with hq1 | hq1
        · exact hbound q hq1 hqe
        · have hqx := List.mem_singleton.mp hq1
          exact absurd (hqx ▸ hqe).symm (hfresh p hpb)
      · have hpe : p = (x.1, x.2) := List.mem_singleton.mp hpx
        refine ⟨?_, ?_⟩
        · rw [hpe]
          exact List.mem_append_right _ (by simp)
        · intro q hq hqe
          rcases List.mem_append.mp hq with hq1 | hq1
          · obtain ⟨p', hp', he'⟩ := h3 q hq1
            rw [hpe] at hqe
            exact absurd (hqe ▸ he') (hfresh p' hp')
          · have hqx := List.mem_singleton.mp hq1
            rw [hqx, hpe]
    · intro q hq
      rcases List.mem_append.mp hq with hq1 | hq1
      · obtain ⟨p, hp, he⟩ := h3 q hq1
        exact ⟨p, List.mem_append_left _ hp, he⟩
      · have hqx := List.mem_singleton.mp hq1
        refine ⟨(x.1, x.2), List.mem_append_right _ (by simp), by rw [hqx]⟩
  | some s0 =>
    have hub : updateBest b x.1 x.2 =
        if s0 < x.2 then b.map (fun p => if p.1 = x.1 then (x.1, x.2) else p) else b := by
      simp only [updateBest, hbs]
    rw [hub]
    have hx0 : (x.1, s0) ∈ b := bestScoreOf_mem b x.1 s0 hbs
    split
    · next hlt =>
      have hkey : ∀ p ∈ b,
          ((if p.1 = x.1 then (x.1, x.2) else p) : String × Int).1 = p.1 := by
        intro p hp
        split
        · next he => exact he.symm
        · rfl
      have hkeys : (b.map (fun p => if p.1 = x.1 then (x.1, x.2) else p)).map Prod.fst =
          b.map Prod.fst := by
        rw [List.map_map]
        exact List.map_congr_left hkey
      refine ⟨by rw [hkeys]; exact h1, ?_, ?_⟩
      · intro p' hp'
        rcases List.mem_map.mp hp' with ⟨p, hp, hpe⟩
        by_cases hpx : p.1 = x.1
        · rw [if_pos hpx] at hpe
          refine ⟨?_, ?_⟩
          · rw [← hpe]
            exact List.mem_append_right _ (by simp)
          · have hps : p.2 = s0 := by
              have hthis := mem_bestScoreOf b h1 p hp
              rw [hpx, hbs] at hthis
              exact (Option.some.injEq _ _ ▸ hthis).symm
            intro q hq hqe
            rcases List.mem_append.mp hq with hq1 | hq1
            · have hb' := (h2 p hp).2 q hq1 (by rw [hqe, ← hpe]; exact hpx.symm)
              rw [← hpe]
              show q.2 ≤ x.2
              omega
            · have hqx := List.mem_singleton.mp hq1
              rw [hqx, ← hpe]
        · rw [if_neg hpx] at hpe
          obtain ⟨hpre, hbound⟩ := h2 p hp
          rw [← hpe]
          refine ⟨List.mem_append_left _ hpre, ?_⟩
          intro q hq hqe
          rcases List.mem_append.mp hq with hq1 | hq1
          · exact hbound q hq1 hqe
          · have hqx := List.mem_singleton.mp hq1
            rw [hqx] at hqe
            exact absurd hqe (fun he => hpx he.symm)
      · intro q hq
        rcases List.mem_append.mp hq with hq1 | hq1
        · obtain ⟨p, hp, he⟩ := h3 q hq1
          refine ⟨(if p.1 = x.1 then (x.1, x.2) else p), List.mem_map_of_mem _ hp, ?_⟩
          rw [hkey p hp]
          exact he
        · have hqx := List.mem_singleton.mp hq1
          refine ⟨(x.1, x.2), ?_, by rw [hqx]⟩
          have he : (if ((x.1, s0) : String × Int).1 = x.1 then ((x.1, x.2) : String × Int)
              else (x.1, s0)) = (x.1, x.2) := by simp
          have hm := List.mem_map_of_mem (fun p => if p.1 = x.1 then (x.1, x.2) else p) hx0
          simp only [he] at hm
          exact hm
    · next hge =>
      refine ⟨h1, ?_, ?_⟩
      · intro p hp
        obtain ⟨hpre, hbound⟩ := h2 p hp
        refine ⟨List.mem_append_left _ hpre, ?_⟩
        intro q hq hqe
        rcases List.mem_append.mp hq with hq1 | hq1
        · exact hbound q hq1 hqe
        · have hqx := List.mem_singleton.mp hq1
          have hps : p.2 = s0 := by
            have hthis := mem_bestScoreOf b h1 p hp
            rw [← hqe, hqx, hbs] at hthis
            exact (Option.some.injEq _ _ ▸ hthis).symm
          rw [hqx]
          show x.2 ≤ p.2
          omega
      · intro q hq
        rcases List.mem_append.mp hq with hq1 | hq1
        · exact h3 q hq1
        · have hqx := List.mem_singleton.mp hq1
          exact ⟨(x.1, s0), hx0, by rw [hqx]⟩

theorem mergeBest_go (l : List (String × Int)) :
    ∀ (pre b : List (String × Int)),
      (b.map Prod.fst).Nodup →
      (∀ p ∈ b, p ∈ pre ∧ ∀ q ∈ pre, q.1 = p.1 → q.2 ≤ p.2) →
      (∀ q ∈ pre, ∃ p ∈ b, p.1 = q.1) →
      ((l.foldl (fun acc p => updateBest acc p.1 p.2) b).map Prod.fst).Nodup ∧
      (∀ p ∈ l.foldl (fun acc p => updateBest acc p.1 p.2) b,
          p ∈ pre ++ l ∧ ∀ q ∈ pre ++ l, q.1 = p.1 → q.2 ≤ p.2) ∧
      (∀ q ∈ pre ++ l, ∃ p ∈ l.foldl (fun acc p => updateBest acc p.1 p.2) b, p.1 = q.1) := by
  induction l with
  | nil =>
    intro pre b h1 h2 h3
    simp only [List.foldl_nil, List.append_nil]
    exact ⟨h1, h2, h3⟩
  | cons x xs ih =>
    intro pre b h1 h2 h3
    obtain ⟨g1, g2, g3⟩ := updateBest_invariant pre b x h1 h2 h3
    have := ih (pre ++ [x]) (updateBest b x.1 x.2) g1 g2 g3
    rw [List.append_assoc, List.singleton_append] at this
    simpa only [List.foldl_cons] using this

theorem mergeBest_invariant (l : List (String × Int)) :
    ((mergeBest l).map Prod.fst).Nodup ∧
    (∀ p ∈ mergeBest l, p ∈ l ∧ ∀ q ∈ l, q.1 = p.1 → q.2 ≤ p.2) ∧
    (∀ q ∈ l, ∃ p ∈ mergeBest l, p.1 = q.1) := by
  have := mergeBest_go l [] [] (by simp)
    (fun p hp => absurd hp (List.not_mem_nil p))
    (fun q hq => absurd hq (List.not_mem_nil q))
  rw [List.nil_append] at this
  exact this

/-- C5: the aggregated output has pairwise-distinct sentence texts, each
entry is an occurrence from the two merged lists carrying the maximum score
over all occurrences of its text, every text of the input lists is
represented in the merged map, the output is sorted descending by score and
truncated to MAX_RESULTS; in particular, merging two lists that each consist
of the text HI with differing scores yields exactly one HI entry carrying the
larger score. -/
theorem C5_aggregation (l1 l2 : List (String × Int)) :
    ((aggregate l1 l2).map Prod.fst).Nodup ∧
    (∀ p ∈ aggregate l1 l2,
        p ∈ l1 ++ l2 ∧ ∀ q ∈ l1 ++ l2, q.1 = p.1 → q.2 ≤ p.2) ∧
    (∀ q ∈ l1 ++ l2, ∃ p ∈ mergeBest (l1 ++ l2), p.1 = q.1) ∧
    (aggregate l1 l2).Pairwise (fun a b => b.2 ≤ a.2) ∧
    (aggregate l1 l2).length ≤ MAX_RESULTS ∧
    (∀ s1 s2 : Int, s1 ≠ s2 →
        aggregate [("HI", s1)] [("HI", s2)] = [("HI", max s1 s2)]) := by
  obtain ⟨m1, m2, m3⟩ := mergeBest_invariant (l1 ++ l2)
  refine ⟨?_, ?_, m3, ?_, ?_, ?_⟩
  · have hperm : List.Perm ((sortDesc (fun x => x.2) (mergeBest (l1 ++ l2))).map Prod.fst)
        ((mergeBest (l1 ++ l2)).map Prod.fst) :=
      (sortDesc_perm _ _).map Prod.fst
    have hnd : ((sortDesc (fun x => x.2) (mergeBest (l1 ++ l2))).map Prod.fst).Nodup :=
      hperm.nodup_iff.mpr m1
    rw [aggregate, List.map_take]
    exact List.Nodup.sublist (List.take_sublist _ _) hnd
  · intro p hp
    exact m2 p (mem_take_sortDesc _ _ _ _ hp)
  · exact List.Pairwise.sublist (List.take_sublist _ _) (pairwise_sortDesc _ _)
  · rw [aggregate, List.length_take]
    exact min_le_left _ _
  · intro s1 s2 hne
    by_cases hlt : s1 < s2
    · rw [max_eq_right (le_of_lt hlt)]
      simp [aggregate, mergeBest, updateBest, bestScoreOf, sortDesc, insertDesc, hlt,
        MAX_RESULTS]
    · rw [max_eq_left (le_of_not_lt hlt)]
      simp [aggregate, mergeBest, updateBest, bestScoreOf, sortDesc, insertDesc, hlt,
        MAX_RESULTS]

/-- C5 witness: merging singleton HI lists with scores 3 and 7 keeps one HI
entry with score 7. -/
theorem C5_aggregation_witness :
    (3 : Int) ≠ 7 ∧ aggregate [("HI", 3)] [("HI", 7)] = [("HI", max 3 7)] :=
  ⟨by decide, (C5_aggregation [] []).2.2.2.2.2 3 7 (by decide)⟩

/-- C3 witness: on a one-symbol sequence the bound is 216, and beams 216 and
1000 give identical decodes. -/
theorem C3_beam_stable_witness :
    6 ^ (2 * (['.'] : List Char).length + 1) ≤ 216 ∧ (216 : Nat) ≤ 1000 ∧
    brute_force_decode 216 MAX_WORD_LEN MAX_RESULTS ['.'] ["E"] =
      brute_force_decode 1000 MAX_WORD_LEN MAX_RESULTS ['.'] ["E"] :=
  ⟨by decide, by decide,
   C3_beam_stable ['.'] ["E"] MAX_WORD_LEN MAX_RESULTS 216 1000 (by decide) (by decide)⟩

end Morse
